import Mathlib

/-!
Shallow embedding of the `niconico-archive` crawler (`main.py`) and proofs of
the behavioural properties of its progress-tracking core.

The embedding models:
* `shardPath`        — `NicoArchiver._get_path_for_id` (sharded storage path);
* `fetchWithRetry`   — `NicoArchiver._fetch_with_retry` (bounded retry loop),
  with the network modelled as an oracle `Nat → Option (Nat × String)` giving
  for each attempt either a response `(status_code, body)` or `none` for a
  transport-level exception;
* `mergeRanges`      — `NicoArchiver._merge_ranges`;
* `walk` / `run`     — the main loop of `NicoArchiver.run`, with the wall-clock
  budget modelled as an oracle `Nat → Bool` (whether the n-th budget check
  reports the limit as exceeded) and the per-ID fetch outcome as an oracle
  `Int → Bool` (whether the getthumbinfo fetch returned a document).

Python integers are unbounded, so IDs and range bounds are `Int`; Python `//`
is floor division, so it is translated as `Int.fdiv`.
-/

/-- Constant `OLDEST_VIDEO_ID = 9` from main.py: IDs below it are never walked. -/
def OLDEST_VIDEO_ID : Int := 9

/-- Constant `RETRY_COUNT = 5` from main.py. -/
def RETRY_COUNT : Nat := 5

/-- Constant `RETRY_WAIT_SECONDS = 10` from main.py. -/
def RETRY_WAIT_SECONDS : Nat := 10

/-- Constant: `run` subtracts 10000 from the resolved newest ID (main.py line
`latest_id = latest_id - 10000`). -/
def FRONTIER_OFFSET : Int := 10000

/-! ## Path sharding (`_get_path_for_id`) -/

/-- Translation of `NicoArchiver._get_path_for_id`: the path is returned as its
list of segments below the data root, namespace first, file name last.
`Int.fdiv` is Python's floor division `//`. -/
def shardPath (ns : String) (item_id : Int) (extension : String) : List String :=
  let item_id_m1 := item_id - 1
  let l1 := (Int.fdiv item_id_m1 1000000) * 1000000 + 1
  let l2 := (Int.fdiv item_id_m1 10000) * 10000 + 1
  let l3 := (Int.fdiv item_id_m1 100) * 100 + 1
  [ns, s!"{l1}-{l1 + 999999}", s!"{l2}-{l2 + 9999}", s!"{l3}-{l3 + 99}",
    s!"{item_id}.{extension}"]

/-- Bucket naming rule as the specification words it: with `m = id - 1`,
`start = floor(m / width) * width + 1` and the bucket is named
`"{start}-{start+width-1}"`. -/
def bucketName (m width : Int) : String :=
  let start := (Int.fdiv m width) * width + 1
  s!"{start}-{start + width - 1}"

/-- Specification-side restatement of the sharding algorithm: three nested
buckets of widths 1,000,000 / 10,000 / 100 named by `bucketName`. -/
def shardPathSpec (ns : String) (id : Int) (extension : String) : List String :=
  let m := id - 1
  [ns, bucketName m 1000000, bucketName m 10000, bucketName m 100,
    s!"{id}.{extension}"]

/-! ## Fetch with retry (`_fetch_with_retry`) -/

/-- Result of one modelled fetch: the returned content (if any), the number of
attempts made, and the list of sleep durations performed (one entry per
retry-wait, each `RETRY_WAIT_SECONDS`). -/
structure FetchResult where
  result : Option String
  attempts : Nat
  sleeps : List Nat
  deriving Repr, DecidableEq

/-- Loop body of `_fetch_with_retry`: `remaining` is the number of loop
iterations left out of `RETRY_COUNT`, `i` the current attempt index, `sleeps`
the sleeps performed so far.  The oracle `resp` yields for attempt `i` either
`some (status_code, body)` or `none` (a `requests.RequestException`). -/
def fetchGo (resp : Nat → Option (Nat × String)) :
    Nat → Nat → List Nat → FetchResult
  | 0, i, sleeps => ⟨none, i, sleeps⟩
  | remaining + 1, i, sleeps =>
    match resp i with
    | some (code, body) =>
      if code = 200 then ⟨some body, i + 1, sleeps⟩
      else if code = 404 then ⟨none, i + 1, sleeps⟩
      else fetchGo resp remaining (i + 1) (sleeps ++ [RETRY_WAIT_SECONDS])
    | none => fetchGo resp remaining (i + 1) (sleeps ++ [RETRY_WAIT_SECONDS])

/-- Translation of `NicoArchiver._fetch_with_retry` (binary and text mode share
the identical control flow, so the content is a single payload type). -/
def fetchWithRetry (resp : Nat → Option (Nat × String)) : FetchResult :=
  fetchGo resp RETRY_COUNT 0 []

/-! ## Range merging (`_merge_ranges`) -/

/-- Python `sorted(r)` on a two-element list `[low, high]`: normalises the pair
so the smaller component comes first. -/
def sortPair (r : Int × Int) : Int × Int :=
  if r.2 < r.1 then (r.2, r.1) else r

/-- Ascending-by-lower-bound order used by `sorted(..., key=lambda x: x[0])`. -/
def lowLE (a b : Int × Int) : Prop := a.1 ≤ b.1

instance : DecidableRel lowLE := fun a b => inferInstanceAs (Decidable (a.1 ≤ b.1))

instance : IsTotal (Int × Int) lowLE := ⟨fun a b => le_total a.1 b.1⟩

instance : IsTrans (Int × Int) lowLE := ⟨fun _ _ _ h h' => le_trans h h'⟩

/-- Fold of `_merge_ranges`: `acc` is the last element of the accumulated
`merged` list, the earlier elements being already emitted. -/
def mergeLoop : Int × Int → List (Int × Int) → List (Int × Int)
  | acc, [] => [acc]
  | acc, cur :: rest =>
    if cur.1 ≤ acc.2 + 1 then mergeLoop (acc.1, max acc.2 cur.2) rest
    else acc :: mergeLoop cur rest

/-- Translation of `NicoArchiver._merge_ranges`: normalise each pair, sort
stably by lower bound, then fold adjacent-or-overlapping ranges together. -/
def mergeRanges (ranges : List (Int × Int)) : List (Int × Int) :=
  match List.insertionSort lowLE (ranges.map sortPair) with
  | [] => []
  | h :: t => mergeLoop h t

/-! ## The walking loop of `NicoArchiver.run` -/

/-- Descending-by-lower-bound order used by
`sorted(processed_ranges, key=lambda x: x[0], reverse=True)`. -/
def lowGE (a b : Int × Int) : Prop := b.1 ≤ a.1

instance : DecidableRel lowGE := fun a b => inferInstanceAs (Decidable (b.1 ≤ a.1))

instance : IsTotal (Int × Int) lowGE := ⟨fun a b => le_total b.1 a.1⟩

instance : IsTrans (Int × Int) lowGE := ⟨fun _ _ _ h h' => le_trans h' h⟩

/-- The skip test of the walking loop: scan the processed ranges in descending
order of lower bound and return the first `(start, end)` containing `c`. -/
def findSkip (ranges : List (Int × Int)) (c : Int) : Option (Int × Int) :=
  (List.insertionSort lowGE ranges).find? fun r => decide (r.1 ≤ c) && decide (c ≤ r.2)

/-- Outcome of the walking loop: `endId` is `end_id_this_run` (`-1` when no ID
was processed), `attempted` lists in visit order each processed ID paired with
whether its getthumbinfo fetch returned a document, `checksUsed` counts the
wall-clock budget evaluations, `stoppedByBudget` tells whether the loop ended
via the budget `break`, and `finalCursor` is the final `current_id`. -/
structure WalkResult where
  endId : Int
  attempted : List (Int × Bool)
  checksUsed : Nat
  stoppedByBudget : Bool
  finalCursor : Int
  deriving Repr, DecidableEq

/-- One-for-one translation of the `while current_id >= OLDEST_VIDEO_ID` loop
of `NicoArchiver.run`, made structurally recursive on an explicit bound
`fuel`; the cursor strictly decreases every iteration, so any
`fuel ≥ (c - OLDEST_VIDEO_ID + 1).toNat` makes the `fuel = 0` branch
unreachable (`walkGo_congr` below).  `budget n` is the result of the `n`-th
`time.time() - self.start_time > ...` test; a skip (`continue`) re-enters the
loop head and therefore performs another budget test. -/
def walkGo (budget : Nat → Bool) (fetchOk : Int → Bool) (ranges : List (Int × Int)) :
    Nat → Int → Nat → Int → List (Int × Bool) → WalkResult
  | fuel, c, checks, endId, att =>
    if c < OLDEST_VIDEO_ID then ⟨endId, att, checks, false, c⟩
    else if budget checks then ⟨endId, att, checks + 1, true, c⟩
    else
      match fuel, findSkip ranges c with
      | 0, _ => ⟨endId, att, checks + 1, false, c⟩
      | fuel' + 1, some r => walkGo budget fetchOk ranges fuel' (r.1 - 1) (checks + 1) endId att
      | fuel' + 1, none =>
        if c < OLDEST_VIDEO_ID then ⟨endId, att, checks + 1, false, c⟩
        else walkGo budget fetchOk ranges fuel' (c - 1) (checks + 1) c (att ++ [(c, fetchOk c)])

/-- The walking loop started with adequate fuel. -/
def walk (budget : Nat → Bool) (fetchOk : Int → Bool) (ranges : List (Int × Int))
    (c : Int) (checks : Nat) (endId : Int) (att : List (Int × Bool)) : WalkResult :=
  walkGo budget fetchOk ranges (c - OLDEST_VIDEO_ID + 1).toNat c checks endId att

/-! ## The run driver (`NicoArchiver.run`) -/

/-- Per-prefix progress record, the `{"processed_ranges": ..., "last_known_id": ...}`
entry of progress.json for the driven prefix. -/
structure PrefixRecord where
  processed_ranges : List (Int × Int)
  last_known_id : Option Int
  deriving Repr, DecidableEq

/-- The coverage-reset test of `NicoArchiver.run`: if the merged list is a
single range `[lo, hi]` with `lo ≤ OLDEST_VIDEO_ID` and `hi ≥ latest_id`, all
progress is cleared. -/
def resetIfComplete (latest_id : Int) (merged : List (Int × Int)) : List (Int × Int) :=
  match merged with
  | [r] => if r.1 ≤ OLDEST_VIDEO_ID ∧ latest_id ≤ r.2 then [] else merged
  | _ => merged

/-- Outcome of one `run`: `saved = some rec` iff `_save_progress` wrote the
record `rec` for the driven prefix, `walkResult` the walking-loop outcome (absent
when the frontier could not be resolved), `walkedRanges` the merged-and-maybe-
reset range list the loop skipped against (also what line 170 stores into the
record before walking). -/
structure RunOutcome where
  saved : Option PrefixRecord
  walkResult : Option WalkResult
  walkedRanges : Option (List (Int × Int))
  deriving Repr, DecidableEq

/-- Translation of `NicoArchiver.run`.  `frontier` is the result of
`get_latest_video_id()` (`none` on resolution failure); `budget` and `fetchOk`
are the oracles of `walkGo`; `rec` is the loaded progress record for the
driven prefix. -/
def run (frontier : Option Int) (budget : Nat → Bool) (fetchOk : Int → Bool)
    (rec : PrefixRecord) : RunOutcome :=
  match frontier with
  | none => ⟨none, none, none⟩
  | some f =>
    let latest_id := f - FRONTIER_OFFSET
    let pre := resetIfComplete latest_id (mergeRanges rec.processed_ranges)
    let w := walk budget fetchOk pre latest_id 0 (-1) []
    let finalRanges :=
      if w.endId ≠ -1 then mergeRanges (pre ++ [(w.endId, latest_id)]) else pre
    ⟨some ⟨finalRanges, some latest_id⟩, some w, some pre⟩

/-! ## Interval vocabulary for the range-merge proofs -/

/-- Every stored pair is a well-formed closed interval, `low ≤ high`. -/
def Normalized (l : List (Int × Int)) : Prop := ∀ r ∈ l, r.1 ≤ r.2

/-- No two ranges of the list overlap or are adjacent: along the list, each
range ends at least two below where the next begins. -/
def Separated (l : List (Int × Int)) : Prop :=
  List.Pairwise (fun a b => a.2 + 1 < b.1) l

/-- The set of IDs covered by a list of closed ranges. -/
def covers (l : List (Int × Int)) (n : Int) : Prop :=
  ∃ r ∈ l, r.1 ≤ n ∧ n ≤ r.2

/-! ## Theory of `mergeRanges` -/

theorem sortPair_norm (r : Int × Int) : (sortPair r).1 ≤ (sortPair r).2 := by
  unfold sortPair; split
  · rename_i h; exact le_of_lt h
  · rename_i h; omega

theorem mergeLoop_low {a : Int} :
    ∀ (rest : List (Int × Int)) (acc : Int × Int), a ≤ acc.1 →
      (∀ r ∈ rest, a ≤ r.1) → ∀ x ∈ mergeLoop acc rest, a ≤ x.1 := by
  intro rest
  induction rest with
  | nil =>
    intro acc hacc _ x hx
    rw [mergeLoop, List.mem_singleton] at hx
    subst hx; exact hacc
  | cons cur rest ih =>
    intro acc hacc hrest x hx
    rw [mergeLoop] at hx
    split at hx
    · exact ih (acc.1, max acc.2 cur.2) hacc
        (fun r hr => hrest r (List.mem_cons_of_mem _ hr)) x hx
    · rcases List.mem_cons.1 hx with rfl | h
      · exact hacc
      · exact ih cur (hrest cur (List.mem_cons_self _ _))
          (fun r hr => hrest r (List.mem_cons_of_mem _ hr)) x h

theorem mergeLoop_norm :
    ∀ (rest : List (Int × Int)) (acc : Int × Int), acc.1 ≤ acc.2 →
      Normalized rest → Normalized (mergeLoop acc rest) := by
  intro rest
  induction rest with
  | nil =>
    intro acc hacc _ x hx
    rw [mergeLoop, List.mem_singleton] at hx
    subst hx; exact hacc
  | cons cur rest ih =>
    intro acc hacc hnorm x hx
    rw [mergeLoop] at hx
    split at hx
    · exact ih (acc.1, max acc.2 cur.2) (le_trans hacc (le_max_left _ _))
        (fun r hr => hnorm r (List.mem_cons_of_mem _ hr)) x hx
    · rcases List.mem_cons.1 hx with rfl | h
      · exact hacc
      · exact ih cur (hnorm cur (List.mem_cons_self _ _))
          (fun r hr => hnorm r (List.mem_cons_of_mem _ hr)) x h

theorem mergeLoop_sep :
    ∀ (rest : List (Int × Int)) (acc : Int × Int),
      List.Pairwise lowLE (acc :: rest) →
      Separated (mergeLoop acc rest) := by
  intro rest
  induction rest with
  | nil =>
    intro acc _
    rw [mergeLoop]
    exact List.pairwise_singleton _ _
  | cons cur rest ih =>
    intro acc hsort
    rw [List.pairwise_cons] at hsort
    obtain ⟨hacc, hsort'⟩ := hsort
    rw [mergeLoop]
    split
    · apply ih (acc.1, max acc.2 cur.2)
      rw [List.pairwise_cons]
      exact ⟨fun r hr => hacc r (List.mem_cons_of_mem _ hr),
        (List.pairwise_cons.1 hsort').2⟩
    · rename_i hgap
      unfold Separated
      rw [List.pairwise_cons]
      constructor
      · intro x hx
        have hlow : cur.1 ≤ x.1 :=
          mergeLoop_low rest cur le_rfl
            (fun r hr => (List.pairwise_cons.1 hsort').1 r hr) x hx
        omega
      · exact ih cur hsort'

theorem mergeLoop_covers {n : Int} :
    ∀ (rest : List (Int × Int)) (acc : Int × Int),
      List.Pairwise lowLE (acc :: rest) → Normalized (acc :: rest) →
      (covers (mergeLoop acc rest) n ↔ covers (acc :: rest) n) := by
  intro rest
  induction rest with
  | nil =>
    intro acc _ _
    rw [mergeLoop]
  | cons cur rest ih =>
    intro acc hsort hnorm
    have hsort' : List.Pairwise lowLE (cur :: rest) := (List.pairwise_cons.1 hsort).2
    have haccle : acc.1 ≤ cur.1 :=
      (List.pairwise_cons.1 hsort).1 cur (List.mem_cons_self _ _)
    have haccn : acc.1 ≤ acc.2 := hnorm acc (List.mem_cons_self _ _)
    have hcurn : cur.1 ≤ cur.2 :=
      hnorm cur (List.mem_cons_of_mem _ (List.mem_cons_self _ _))
    rw [mergeLoop]
    split
    · rename_i hmerge
      have hm : covers (mergeLoop (acc.1, max acc.2 cur.2) rest) n ↔
          covers ((acc.1, max acc.2 cur.2) :: rest) n := by
        apply ih
        · rw [List.pairwise_cons]
          refine ⟨fun r hr => ?_, (List.pairwise_cons.1 hsort').2⟩
          have h1 : cur.1 ≤ r.1 := (List.pairwise_cons.1 hsort').1 r hr
          exact le_trans haccle h1
        · intro r hr
          rcases List.mem_cons.1 hr with rfl | h
          · exact le_trans haccn (le_max_left _ _)
          · exact hnorm r (List.mem_cons_of_mem _ (List.mem_cons_of_mem _ h))
      rw [hm]
      unfold covers
      simp only [List.mem_cons]
      constructor
      · rintro ⟨r, hr | hr, h1, h2⟩
        · subst hr
          have h1' : acc.1 ≤ n := h1
          have h2' : n ≤ max acc.2 cur.2 := h2
          by_cases hle : n ≤ acc.2
          · exact ⟨acc, Or.inl rfl, h1', hle⟩
          · rcases le_max_iff.1 h2' with hc | hc
            · omega
            · exact ⟨cur, Or.inr (Or.inl rfl), by omega, hc⟩
        · exact ⟨r, Or.inr (Or.inr hr), h1, h2⟩
      · rintro ⟨r, hr | hr | hr, h1, h2⟩
        · rw [hr] at h1 h2
          exact ⟨(acc.1, max acc.2 cur.2), Or.inl rfl, h1,
            le_trans h2 (le_max_left _ _)⟩
        · rw [hr] at h1 h2
          exact ⟨(acc.1, max acc.2 cur.2), Or.inl rfl, le_trans haccle h1,
            le_trans h2 (le_max_right _ _)⟩
        · exact ⟨r, Or.inr hr, h1, h2⟩
    · have hm : covers (mergeLoop cur rest) n ↔ covers (cur :: rest) n :=
        ih cur hsort' (fun r hr => hnorm r (List.mem_cons_of_mem _ hr))
      unfold covers at hm ⊢
      simp only [List.mem_cons] at hm ⊢
      constructor
      · rintro ⟨r, hr | hr, h1, h2⟩
        · exact ⟨r, Or.inl hr, h1, h2⟩
        · obtain ⟨r', hr', h1', h2'⟩ := hm.1 ⟨r, hr, h1, h2⟩
          exact ⟨r', Or.inr hr', h1', h2'⟩
      · rintro ⟨r, hr | hr, h1, h2⟩
        · exact ⟨r, Or.inl hr, h1, h2⟩
        · obtain ⟨r', hr', h1', h2'⟩ := hm.2 ⟨r, hr, h1, h2⟩
          exact ⟨r', Or.inr hr', h1', h2'⟩

theorem covers_perm {l l' : List (Int × Int)} (h : l.Perm l') (n : Int) :
    covers l n ↔ covers l' n := by
  unfold covers
  constructor
  · rintro ⟨r, hr, h1, h2⟩
    exact ⟨r, h.mem_iff.1 hr, h1, h2⟩
  · rintro ⟨r, hr, h1, h2⟩
    exact ⟨r, h.mem_iff.2 hr, h1, h2⟩

theorem mergeRanges_norm (rs : List (Int × Int)) : Normalized (mergeRanges rs) := by
  unfold mergeRanges
  have hmem : ∀ r ∈ List.insertionSort lowLE (rs.map sortPair), r.1 ≤ r.2 := by
    intro r hr
    rw [List.mem_insertionSort] at hr
    obtain ⟨r0, _, hr0⟩ := List.mem_map.1 hr
    rw [← hr0]
    exact sortPair_norm r0
  split
  · intro r hr; cases hr
  · rename_i h t heq
    exact mergeLoop_norm t h (hmem h (heq ▸ List.mem_cons_self _ _))
      (fun r hr => hmem r (heq ▸ List.mem_cons_of_mem _ hr))

theorem mergeRanges_sep (rs : List (Int × Int)) : Separated (mergeRanges rs) := by
  unfold mergeRanges
  have hsort : List.Pairwise lowLE (List.insertionSort lowLE (rs.map sortPair)) :=
    List.sorted_insertionSort lowLE (rs.map sortPair)
  split
  · exact List.Pairwise.nil
  · rename_i h t heq
    exact mergeLoop_sep t h (heq ▸ hsort)

theorem mergeRanges_covers (rs : List (Int × Int)) (n : Int) :
    covers (mergeRanges rs) n ↔ covers (rs.map sortPair) n := by
  unfold mergeRanges
  have hperm := List.perm_insertionSort lowLE (rs.map sortPair)
  have hsort : List.Pairwise lowLE (List.insertionSort lowLE (rs.map sortPair)) :=
    List.sorted_insertionSort lowLE (rs.map sortPair)
  have hnorm : Normalized (List.insertionSort lowLE (rs.map sortPair)) := by
    intro r hr
    rw [List.mem_insertionSort] at hr
    obtain ⟨r0, _, hr0⟩ := List.mem_map.1 hr
    rw [← hr0]
    exact sortPair_norm r0
  split
  · rename_i heq
    rw [← covers_perm (heq ▸ hperm : List.Perm [] (rs.map sortPair)) n]
  · rename_i h t heq
    rw [mergeLoop_covers t h (heq ▸ hsort) (heq ▸ hnorm)]
    exact covers_perm (heq ▸ hperm) n

theorem covers_ext :
    ∀ (l1 l2 : List (Int × Int)), Normalized l1 → Separated l1 →
      Normalized l2 → Separated l2 → (∀ n, covers l1 n ↔ covers l2 n) →
      l1 = l2 := by
  have head_min : ∀ (b : Int × Int) (t : List (Int × Int)),
      Normalized (b :: t) → Separated (b :: t) → ∀ r ∈ b :: t, b.1 ≤ r.1 := by
    intro b t hN hS r hr
    rcases List.mem_cons.1 hr with rfl | h
    · exact le_refl _
    · have h1 : b.2 + 1 < r.1 := (List.pairwise_cons.1 hS).1 r h
      have h2 : b.1 ≤ b.2 := hN b (List.mem_cons_self _ _)
      omega
  have high_le : ∀ (a b : Int × Int) (t1 t2 : List (Int × Int)),
      Normalized (a :: t1) → Separated (a :: t1) →
      Normalized (b :: t2) → Separated (b :: t2) →
      (∀ n, covers (a :: t1) n ↔ covers (b :: t2) n) → a.1 = b.1 → a.2 ≤ b.2 := by
    intro a b t1 t2 hN1 hS1 hN2 hS2 hcov hlow
    by_contra hgt
    push_neg at hgt
    have hb : b.1 ≤ b.2 := hN2 b (List.mem_cons_self _ _)
    have hcb : covers (a :: t1) (b.2 + 1) := by
      refine ⟨a, List.mem_cons_self _ _, ?_, ?_⟩ <;> omega
    obtain ⟨r, hr, h1, h2⟩ := (hcov (b.2 + 1)).1 hcb
    rcases List.mem_cons.1 hr with rfl | h
    · omega
    · have : b.2 + 1 < r.1 := (List.pairwise_cons.1 hS2).1 r h
      omega
  intro l1
  induction l1 with
  | nil =>
    intro l2 _ _ hN2 _ hcov
    cases l2 with
    | nil => rfl
    | cons b t2 =>
      exfalso
      have : covers (b :: t2) b.1 :=
        ⟨b, List.mem_cons_self _ _, le_refl _, hN2 b (List.mem_cons_self _ _)⟩
      obtain ⟨r, hr, -, -⟩ := (hcov b.1).2 this
      cases hr
  | cons a t1 ih =>
    intro l2 hN1 hS1 hN2 hS2 hcov
    cases l2 with
    | nil =>
      exfalso
      have : covers (a :: t1) a.1 :=
        ⟨a, List.mem_cons_self _ _, le_refl _, hN1 a (List.mem_cons_self _ _)⟩
      obtain ⟨r, hr, -, -⟩ := (hcov a.1).1 this
      cases hr
    | cons b t2 =>
      have hlow : a.1 = b.1 := by
        have hca : covers (a :: t1) a.1 :=
          ⟨a, List.mem_cons_self _ _, le_refl _, hN1 a (List.mem_cons_self _ _)⟩
        obtain ⟨r, hr, h1, -⟩ := (hcov a.1).1 hca
        have hba : b.1 ≤ a.1 := le_trans (head_min b t2 hN2 hS2 r hr) h1
        have hcb : covers (b :: t2) b.1 :=
          ⟨b, List.mem_cons_self _ _, le_refl _, hN2 b (List.mem_cons_self _ _)⟩
        obtain ⟨r', hr', h1', -⟩ := (hcov b.1).2 hcb
        have hab : a.1 ≤ b.1 := le_trans (head_min a t1 hN1 hS1 r' hr') h1'
        omega
      have hhigh : a.2 = b.2 :=
        le_antisymm
          (high_le a b t1 t2 hN1 hS1 hN2 hS2 hcov hlow)
          (high_le b a t2 t1 hN2 hS2 hN1 hS1 (fun n => (hcov n).symm) hlow.symm)
      have hab : a = b := Prod.ext hlow hhigh
      subst hab
      have htail : ∀ n, covers t1 n ↔ covers t2 n := by
        intro n
        constructor
        · rintro ⟨r, hr, h1, h2⟩
          have hgap : a.2 + 1 < r.1 := (List.pairwise_cons.1 hS1).1 r hr
          have : covers (a :: t2) n :=
            (hcov n).1 ⟨r, List.mem_cons_of_mem _ hr, h1, h2⟩
          obtain ⟨r', hr', h1', h2'⟩ := this
          rcases List.mem_cons.1 hr' with rfl | h
          · omega
          · exact ⟨r', h, h1', h2'⟩
        · rintro ⟨r, hr, h1, h2⟩
          have hgap : a.2 + 1 < r.1 := (List.pairwise_cons.1 hS2).1 r hr
          have : covers (a :: t1) n :=
            (hcov n).2 ⟨r, List.mem_cons_of_mem _ hr, h1, h2⟩
          obtain ⟨r', hr', h1', h2'⟩ := this
          rcases List.mem_cons.1 hr' with rfl | h
          · omega
          · exact ⟨r', h, h1', h2'⟩
      rw [ih t2 (fun r hr => hN1 r (List.mem_cons_of_mem _ hr))
        (List.pairwise_cons.1 hS1).2 (fun r hr => hN2 r (List.mem_cons_of_mem _ hr))
        (List.pairwise_cons.1 hS2).2 htail]

theorem sortPair_eq_self {r : Int × Int} (h : r.1 ≤ r.2) : sortPair r = r := by
  unfold sortPair
  rw [if_neg (by omega)]

theorem map_sortPair_id {l : List (Int × Int)} (h : Normalized l) :
    l.map sortPair = l := by
  rw [List.map_congr_left (fun r hr => sortPair_eq_self (h r hr))]
  exact List.map_id' l

theorem mergeRanges_perm {rs rs' : List (Int × Int)} (h : rs.Perm rs') :
    mergeRanges rs = mergeRanges rs' := by
  apply covers_ext _ _ (mergeRanges_norm rs) (mergeRanges_sep rs)
    (mergeRanges_norm rs') (mergeRanges_sep rs')
  intro n
  rw [mergeRanges_covers, mergeRanges_covers]
  exact covers_perm (h.map sortPair) n

theorem mergeRanges_idem (rs : List (Int × Int)) :
    mergeRanges (mergeRanges rs) = mergeRanges rs := by
  apply covers_ext _ _ (mergeRanges_norm _) (mergeRanges_sep _)
    (mergeRanges_norm rs) (mergeRanges_sep rs)
  intro n
  rw [mergeRanges_covers, map_sortPair_id (mergeRanges_norm rs)]

theorem mergeLoop_subsume :
    ∀ (rest : List (Int × Int)) (acc : Int × Int),
      List.Pairwise lowLE (acc :: rest) →
      ∀ r ∈ acc :: rest, ∃ u ∈ mergeLoop acc rest, u.1 ≤ r.1 ∧ r.2 ≤ u.2 := by
  intro rest
  induction rest with
  | nil =>
    intro acc _ r hr
    rw [List.mem_singleton] at hr
    subst hr
    exact ⟨r, by rw [mergeLoop]; exact List.mem_singleton_self _, le_refl _, le_refl _⟩
  | cons cur rest ih =>
    intro acc hsort r hr
    have hsort' : List.Pairwise lowLE (cur :: rest) := (List.pairwise_cons.1 hsort).2
    have haccle : acc.1 ≤ cur.1 :=
      (List.pairwise_cons.1 hsort).1 cur (List.mem_cons_self _ _)
    rw [mergeLoop]
    split
    · rename_i hmerge
      have hsort2 : List.Pairwise lowLE ((acc.1, max acc.2 cur.2) :: rest) := by
        rw [List.pairwise_cons]
        refine ⟨fun x hx => ?_, (List.pairwise_cons.1 hsort').2⟩
        exact le_trans haccle ((List.pairwise_cons.1 hsort').1 x hx)
      rcases List.mem_cons.1 hr with heq | hr2
      · obtain ⟨u, hu, hu1, hu2⟩ :=
          ih (acc.1, max acc.2 cur.2) hsort2 _ (List.mem_cons_self _ _)
        refine ⟨u, hu, ?_, ?_⟩
        · rw [heq]; exact hu1
        · rw [heq]; exact le_trans (le_max_left _ _) hu2
      rcases List.mem_cons.1 hr2 with heq | hr3
      · obtain ⟨u, hu, hu1, hu2⟩ :=
          ih (acc.1, max acc.2 cur.2) hsort2 _ (List.mem_cons_self _ _)
        refine ⟨u, hu, ?_, ?_⟩
        · rw [heq]; exact le_trans hu1 haccle
        · rw [heq]; exact le_trans (le_max_right _ _) hu2
      · obtain ⟨u, hu, hu1, hu2⟩ :=
          ih (acc.1, max acc.2 cur.2) hsort2 r (List.mem_cons_of_mem _ hr3)
        exact ⟨u, hu, hu1, hu2⟩
    · rcases List.mem_cons.1 hr with heq | hr2
      · exact ⟨acc, List.mem_cons_self _ _, by rw [heq], by rw [heq]⟩
      · obtain ⟨u, hu, hu1, hu2⟩ := ih cur hsort' r hr2
        exact ⟨u, List.mem_cons_of_mem _ hu, hu1, hu2⟩

theorem mergeRanges_subsume (rs : List (Int × Int)) :
    ∀ r ∈ rs.map sortPair, ∃ u ∈ mergeRanges rs, u.1 ≤ r.1 ∧ r.2 ≤ u.2 := by
  intro r hr
  unfold mergeRanges
  have hperm := List.perm_insertionSort lowLE (rs.map sortPair)
  have hsort : List.Pairwise lowLE (List.insertionSort lowLE (rs.map sortPair)) :=
    List.sorted_insertionSort lowLE (rs.map sortPair)
  have hr' : r ∈ List.insertionSort lowLE (rs.map sortPair) :=
    (List.mem_insertionSort lowLE).2 hr
  split
  · rename_i heq
    rw [heq] at hr'
    cases hr'
  · rename_i h t heq
    exact mergeLoop_subsume t h (heq ▸ hsort) r (heq ▸ hr')

theorem sep_same_point {l : List (Int × Int)} (hS : Separated l) {u v : Int × Int}
    (hu : u ∈ l) (hv : v ∈ l) {m : Int}
    (hum : u.1 ≤ m ∧ m ≤ u.2) (hvm : v.1 ≤ m ∧ m ≤ v.2) : u = v := by
  by_contra hne
  have hsym : Symmetric (fun a b : Int × Int => a.2 + 1 < b.1 ∨ b.2 + 1 < a.1) :=
    fun a b h => h.symm
  have := (hS.imp fun h => Or.inl h).forall hsym hu hv hne
  omega

theorem covered_interval {l : List (Int × Int)} (hS : Separated l) :
    ∀ (k : Nat) (n : Int), (∀ m, n ≤ m → m ≤ n + k → covers l m) →
      ∃ u ∈ l, u.1 ≤ n ∧ n + k ≤ u.2 := by
  intro k
  induction k with
  | zero =>
    intro n hall
    obtain ⟨u, hu, h1, h2⟩ := hall n (le_refl n) (by omega)
    exact ⟨u, hu, h1, by omega⟩
  | succ k ih =>
    intro n hall
    obtain ⟨u, hu, hu1, hu2⟩ := ih n (fun m hm1 hm2 => hall m hm1 (by omega))
    obtain ⟨w, hw, hw1, hw2⟩ := hall (n + k + 1) (by omega) (by omega)
    by_cases hcase : n + k + 1 ≤ u.2
    · exact ⟨u, hu, hu1, by omega⟩
    · by_cases hw0 : w.1 ≤ n + k
      · have huw : u = w :=
          sep_same_point hS hu hw (m := n + k) ⟨by omega, by omega⟩
            ⟨hw0, by omega⟩
        subst huw
        exact ⟨u, hu, hu1, by omega⟩
      · exfalso
        have hne : u ≠ w := by
          intro h
          rw [h] at hcase
          omega
        have hsym : Symmetric (fun a b : Int × Int => a.2 + 1 < b.1 ∨ b.2 + 1 < a.1) :=
          fun a b h => h.symm
        have hrel := (hS.imp fun h => Or.inl h).forall hsym hu hw hne
        omega

theorem mergeRanges_joins {rs : List (Int × Int)} {r1 r2 : Int × Int}
    (h1 : r1 ∈ rs.map sortPair) (h2 : r2 ∈ rs.map sortPair)
    (hord : r1.1 ≤ r2.1) (hadj : r2.1 ≤ r1.2 + 1) :
    ∃ u ∈ mergeRanges rs, u.1 ≤ r1.1 ∧ r1.2 ≤ u.2 ∧ u.1 ≤ r2.1 ∧ r2.2 ≤ u.2 := by
  have hn1 : r1.1 ≤ r1.2 := by
    obtain ⟨r0, -, hr0⟩ := List.mem_map.1 h1
    rw [← hr0]; exact sortPair_norm r0
  have hn2 : r2.1 ≤ r2.2 := by
    obtain ⟨r0, -, hr0⟩ := List.mem_map.1 h2
    rw [← hr0]; exact sortPair_norm r0
  have hM1 : r1.2 ≤ max r1.2 r2.2 := le_max_left _ _
  have hM2 : r2.2 ≤ max r1.2 r2.2 := le_max_right _ _
  have hall : ∀ m, r1.1 ≤ m → m ≤ max r1.2 r2.2 → covers (mergeRanges rs) m := by
    intro m hm1 hm2
    rw [mergeRanges_covers]
    by_cases hc : m ≤ r1.2
    · exact ⟨r1, h1, hm1, hc⟩
    · refine ⟨r2, h2, by omega, ?_⟩
      rcases le_max_iff.1 hm2 with h | h
      · omega
      · exact h
  obtain ⟨u, hu, hu1, hu2⟩ :=
    covered_interval (mergeRanges_sep rs) (max r1.2 r2.2 - r1.1).toNat r1.1
      (fun m hm1 hm2 => hall m hm1 (by omega))
  have hMge : r1.1 ≤ max r1.2 r2.2 := le_trans hn1 hM1
  refine ⟨u, hu, hu1, by omega, by omega, by omega⟩

/-! ## Theory of `fetchWithRetry` -/

theorem fetchGo_attempts_le (resp : Nat → Option (Nat × String)) :
    ∀ (remaining i : Nat) (sleeps : List Nat),
      (fetchGo resp remaining i sleeps).attempts ≤ i + remaining := by
  intro remaining
  induction remaining with
  | zero => intro i sleeps; rw [fetchGo]; dsimp only; omega
  | succ remaining ih =>
    intro i sleeps
    rw [fetchGo]
    rcases hres : resp i with - | p
    · exact le_trans (ih (i + 1) _) (by omega)
    · obtain ⟨code, body⟩ := p
      dsimp only
      split
      · dsimp only; omega
      · split
        · dsimp only; omega
        · exact le_trans (ih (i + 1) _) (by omega)

theorem fetchGo_all_retryable (resp : Nat → Option (Nat × String)) :
    ∀ (remaining i : Nat) (sleeps : List Nat),
      (∀ j, i ≤ j → j < i + remaining →
        ∀ code body, resp j = some (code, body) →
          ¬(200 ≤ code ∧ code < 300) ∧ code ≠ 404) →
      fetchGo resp remaining i sleeps =
        ⟨none, i + remaining, sleeps ++ List.replicate remaining RETRY_WAIT_SECONDS⟩ := by
  intro remaining
  induction remaining with
  | zero => intro i sleeps _; rw [fetchGo]; simp
  | succ remaining ih =>
    intro i sleeps hall
    rw [fetchGo]
    rcases hres : resp i with - | p
    · rw [ih (i + 1) _ (fun j hj1 hj2 => hall j (by omega) (by omega))]
      have harith : i + 1 + remaining = i + (remaining + 1) := by omega
      rw [harith, List.replicate_succ]
      simp
    · obtain ⟨code, body⟩ := p
      have hcb := hall i (le_refl i) (by omega) code body hres
      dsimp only
      rw [if_neg (by omega), if_neg (by omega)]
      rw [ih (i + 1) _ (fun j hj1 hj2 => hall j (by omega) (by omega))]
      have harith : i + 1 + remaining = i + (remaining + 1) := by omega
      rw [harith, List.replicate_succ]
      simp

/-! ## Theory of the walking loop -/

theorem findSkip_some {ranges : List (Int × Int)} {c : Int} {r : Int × Int}
    (h : findSkip ranges c = some r) : r.1 ≤ c ∧ c ≤ r.2 ∧ r ∈ ranges := by
  unfold findSkip at h
  have hp := List.find?_some h
  simp only [Bool.and_eq_true, decide_eq_true_eq] at hp
  have hm := List.mem_of_find?_eq_some h
  rw [List.mem_insertionSort] at hm
  exact ⟨hp.1, hp.2, hm⟩

theorem walkGo_exit_floor (budget : Nat → Bool) (fetchOk : Int → Bool)
    (ranges : List (Int × Int)) (fuel : Nat) {c : Int} (checks : Nat) (endId : Int)
    (att : List (Int × Bool)) (h9 : c < OLDEST_VIDEO_ID) :
    walkGo budget fetchOk ranges fuel c checks endId att =
      ⟨endId, att, checks, false, c⟩ := by
  rw [walkGo.eq_def]
  dsimp only
  rw [if_pos h9]

theorem walkGo_exit_budget (budget : Nat → Bool) (fetchOk : Int → Bool)
    (ranges : List (Int × Int)) (fuel : Nat) {c : Int} {checks : Nat} (endId : Int)
    (att : List (Int × Bool)) (h9 : ¬c < OLDEST_VIDEO_ID) (hb : budget checks = true) :
    walkGo budget fetchOk ranges fuel c checks endId att =
      ⟨endId, att, checks + 1, true, c⟩ := by
  rw [walkGo.eq_def]
  dsimp only
  rw [if_neg h9, if_pos hb]

theorem walkGo_exit_fuel (budget : Nat → Bool) (fetchOk : Int → Bool)
    (ranges : List (Int × Int)) {c : Int} {checks : Nat} (endId : Int)
    (att : List (Int × Bool)) (h9 : ¬c < OLDEST_VIDEO_ID) (hb : budget checks = false) :
    walkGo budget fetchOk ranges 0 c checks endId att =
      ⟨endId, att, checks + 1, false, c⟩ := by
  rw [walkGo.eq_def]
  dsimp only
  rw [if_neg h9, if_neg (by simp [hb])]

theorem walkGo_step_skip (budget : Nat → Bool) (fetchOk : Int → Bool)
    (ranges : List (Int × Int)) (fuel : Nat) {c : Int} {checks : Nat} (endId : Int)
    (att : List (Int × Bool)) {r : Int × Int}
    (h9 : ¬c < OLDEST_VIDEO_ID) (hb : budget checks = false)
    (hskip : findSkip ranges c = some r) :
    walkGo budget fetchOk ranges (fuel + 1) c checks endId att =
      walkGo budget fetchOk ranges fuel (r.1 - 1) (checks + 1) endId att := by
  rw [walkGo.eq_def]
  dsimp only
  rw [if_neg h9, if_neg (by simp [hb]), hskip]

theorem walkGo_step_proc (budget : Nat → Bool) (fetchOk : Int → Bool)
    (ranges : List (Int × Int)) (fuel : Nat) {c : Int} {checks : Nat} (endId : Int)
    (att : List (Int × Bool))
    (h9 : ¬c < OLDEST_VIDEO_ID) (hb : budget checks = false)
    (hskip : findSkip ranges c = none) :
    walkGo budget fetchOk ranges (fuel + 1) c checks endId att =
      walkGo budget fetchOk ranges fuel (c - 1) (checks + 1) c
        (att ++ [(c, fetchOk c)]) := by
  rw [walkGo.eq_def]
  dsimp only
  rw [if_neg h9, if_neg (by simp [hb]), hskip]
  dsimp only
  rw [if_neg h9]

theorem walkGo_congr (budget : Nat → Bool) (fetchOk : Int → Bool)
    (ranges : List (Int × Int)) :
    ∀ (fuel₁ fuel₂ : Nat) (c : Int) (checks : Nat) (endId : Int)
      (att : List (Int × Bool)),
      (c - OLDEST_VIDEO_ID + 1).toNat ≤ fuel₁ →
      (c - OLDEST_VIDEO_ID + 1).toNat ≤ fuel₂ →
      walkGo budget fetchOk ranges fuel₁ c checks endId att =
        walkGo budget fetchOk ranges fuel₂ c checks endId att := by
  intro fuel₁
  induction fuel₁ with
  | zero =>
    intro fuel₂ c checks endId att h1 _
    have hc : c < OLDEST_VIDEO_ID := by
      simp only [OLDEST_VIDEO_ID] at h1 ⊢; omega
    rw [walkGo_exit_floor budget fetchOk ranges 0 checks endId att hc,
      walkGo_exit_floor budget fetchOk ranges fuel₂ checks endId att hc]
  | succ fuel₁ ih =>
    intro fuel₂ c checks endId att h1 h2
    by_cases hc : c < OLDEST_VIDEO_ID
    · rw [walkGo_exit_floor budget fetchOk ranges _ checks endId att hc,
        walkGo_exit_floor budget fetchOk ranges fuel₂ checks endId att hc]
    · obtain ⟨fuel₂', rfl⟩ : ∃ k, fuel₂ = k + 1 := by
        cases fuel₂ with
        | zero =>
          exfalso
          simp only [OLDEST_VIDEO_ID] at hc h2
          omega
        | succ k => exact ⟨k, rfl⟩
      cases hb : budget checks
      · rcases hskip : findSkip ranges c with - | r
        · rw [walkGo_step_proc budget fetchOk ranges fuel₁ endId att hc hb hskip,
            walkGo_step_proc budget fetchOk ranges fuel₂' endId att hc hb hskip]
          apply ih
          · simp only [OLDEST_VIDEO_ID] at h1 hc ⊢; omega
          · simp only [OLDEST_VIDEO_ID] at h2 hc ⊢; omega
        · have hr := (findSkip_some hskip).1
          rw [walkGo_step_skip budget fetchOk ranges fuel₁ endId att hc hb hskip,
            walkGo_step_skip budget fetchOk ranges fuel₂' endId att hc hb hskip]
          apply ih
          · simp only [OLDEST_VIDEO_ID] at h1 hc ⊢; omega
          · simp only [OLDEST_VIDEO_ID] at h2 hc ⊢; omega
      · rw [walkGo_exit_budget budget fetchOk ranges _ endId att hc hb,
          walkGo_exit_budget budget fetchOk ranges _ endId att hc hb]

theorem walkGo_ext (budget : Nat → Bool) (fetchOk : Int → Bool)
    (ranges : List (Int × Int)) :
    ∀ (fuel : Nat) (c : Int) (checks : Nat) (endId : Int) (att : List (Int × Bool)),
      ∃ ext,
        (walkGo budget fetchOk ranges fuel c checks endId att).attempted = att ++ ext ∧
        (∀ p ∈ ext, OLDEST_VIDEO_ID ≤ p.1 ∧ p.1 ≤ c ∧ p.2 = fetchOk p.1 ∧
          (walkGo budget fetchOk ranges fuel c checks endId att).endId ≤ p.1) ∧
        ((ext = [] ∧ (walkGo budget fetchOk ranges fuel c checks endId att).endId = endId) ∨
          ∃ p ∈ ext, p.1 = (walkGo budget fetchOk ranges fuel c checks endId att).endId) := by
  intro fuel
  induction fuel with
  | zero =>
    intro c checks endId att
    by_cases hc : c < OLDEST_VIDEO_ID
    · rw [walkGo_exit_floor budget fetchOk ranges 0 checks endId att hc]
      exact ⟨[], by simp, by simp, Or.inl ⟨rfl, rfl⟩⟩
    · cases hb : budget checks
      · rw [walkGo_exit_fuel budget fetchOk ranges endId att hc hb]
        exact ⟨[], by simp, by simp, Or.inl ⟨rfl, rfl⟩⟩
      · rw [walkGo_exit_budget budget fetchOk ranges 0 endId att hc hb]
        exact ⟨[], by simp, by simp, Or.inl ⟨rfl, rfl⟩⟩
  | succ fuel ih =>
    intro c checks endId att
    by_cases hc : c < OLDEST_VIDEO_ID
    · rw [walkGo_exit_floor budget fetchOk ranges _ checks endId att hc]
      exact ⟨[], by simp, by simp, Or.inl ⟨rfl, rfl⟩⟩
    · cases hb : budget checks
      · rcases hskip : findSkip ranges c with - | r
        · rw [walkGo_step_proc budget fetchOk ranges fuel endId att hc hb hskip]
          obtain ⟨ext', hatt, hprops, hend⟩ := ih (c - 1) (checks + 1) c (att ++ [(c, fetchOk c)])
          refine ⟨(c, fetchOk c) :: ext', by rw [hatt]; simp, ?_, ?_⟩
          · intro p hp
            rcases List.mem_cons.1 hp with heq | hp'
            · have hend2 :
                  (walkGo budget fetchOk ranges fuel (c - 1) (checks + 1) c
                    (att ++ [(c, fetchOk c)])).endId ≤ c := by
                rcases hend with ⟨-, he⟩ | ⟨q, hq, he⟩
                · omega
                · have h1 := (hprops q hq).2.1
                  have h2 := (hprops q hq).2.2.2
                  omega
              rw [heq]
              exact ⟨le_of_not_lt hc, le_refl _, rfl, hend2⟩
            · obtain ⟨hq1, hq2, hq3, hq4⟩ := hprops p hp'
              exact ⟨hq1, by omega, hq3, hq4⟩
          · right
            rcases hend with ⟨hnil, he⟩ | ⟨q, hq, he⟩
            · exact ⟨(c, fetchOk c), List.mem_cons_self _ _, he.symm⟩
            · exact ⟨q, List.mem_cons_of_mem _ hq, he⟩
        · have hr := (findSkip_some hskip).1
          rw [walkGo_step_skip budget fetchOk ranges fuel endId att hc hb hskip]
          obtain ⟨ext', hatt, hprops, hend⟩ := ih (r.1 - 1) (checks + 1) endId att
          refine ⟨ext', hatt, ?_, hend⟩
          intro p hp
          obtain ⟨hq1, hq2, hq3, hq4⟩ := hprops p hp
          exact ⟨hq1, by omega, hq3, hq4⟩
      · rw [walkGo_exit_budget budget fetchOk ranges _ endId att hc hb]
        exact ⟨[], by simp, by simp, Or.inl ⟨rfl, rfl⟩⟩

theorem walkGo_fetch_irrel (budget : Nat → Bool) (fo1 fo2 : Int → Bool)
    (ranges : List (Int × Int)) :
    ∀ (fuel : Nat) (c : Int) (checks : Nat) (endId : Int)
      (a1 a2 : List (Int × Bool)), a1.map Prod.fst = a2.map Prod.fst →
      (walkGo budget fo1 ranges fuel c checks endId a1).endId =
        (walkGo budget fo2 ranges fuel c checks endId a2).endId ∧
      (walkGo budget fo1 ranges fuel c checks endId a1).attempted.map Prod.fst =
        (walkGo budget fo2 ranges fuel c checks endId a2).attempted.map Prod.fst := by
  intro fuel
  induction fuel with
  | zero =>
    intro c checks endId a1 a2 h
    by_cases hc : c < OLDEST_VIDEO_ID
    · rw [walkGo_exit_floor budget fo1 ranges 0 checks endId a1 hc,
        walkGo_exit_floor budget fo2 ranges 0 checks endId a2 hc]
      exact ⟨rfl, h⟩
    · cases hb : budget checks
      · rw [walkGo_exit_fuel budget fo1 ranges endId a1 hc hb,
          walkGo_exit_fuel budget fo2 ranges endId a2 hc hb]
        exact ⟨rfl, h⟩
      · rw [walkGo_exit_budget budget fo1 ranges 0 endId a1 hc hb,
          walkGo_exit_budget budget fo2 ranges 0 endId a2 hc hb]
        exact ⟨rfl, h⟩
  | succ fuel ih =>
    intro c checks endId a1 a2 h
    by_cases hc : c < OLDEST_VIDEO_ID
    · rw [walkGo_exit_floor budget fo1 ranges _ checks endId a1 hc,
        walkGo_exit_floor budget fo2 ranges _ checks endId a2 hc]
      exact ⟨rfl, h⟩
    · cases hb : budget checks
      · rcases hskip : findSkip ranges c with - | r
        · rw [walkGo_step_proc budget fo1 ranges fuel endId a1 hc hb hskip,
            walkGo_step_proc budget fo2 ranges fuel endId a2 hc hb hskip]
          exact ih (c - 1) (checks + 1) c _ _ (by simp [h])
        · rw [walkGo_step_skip budget fo1 ranges fuel endId a1 hc hb hskip,
            walkGo_step_skip budget fo2 ranges fuel endId a2 hc hb hskip]
          exact ih (r.1 - 1) (checks + 1) endId a1 a2 h
      · rw [walkGo_exit_budget budget fo1 ranges _ endId a1 hc hb,
          walkGo_exit_budget budget fo2 ranges _ endId a2 hc hb]
        exact ⟨rfl, h⟩

/-! ## Claim theorems -/

/-- C5: the output of `mergeRanges` contains no two ranges that overlap or are
adjacent; any two input ranges with `next.low ≤ prev.high + 1` end up inside a
single merged output range; adjacency (gap 0) merges while a gap of exactly 1
does not, as on the two concrete boundary examples. -/
theorem merge_no_overlap_no_adjacent :
    (∀ (rs : List (Int × Int)) (u v : Int × Int), u ∈ mergeRanges rs →
      v ∈ mergeRanges rs → u ≠ v → u.2 + 1 < v.1 ∨ v.2 + 1 < u.1) ∧
    (∀ (rs : List (Int × Int)) (r1 r2 : Int × Int), r1 ∈ rs.map sortPair →
      r2 ∈ rs.map sortPair → r1.1 ≤ r2.1 → r2.1 ≤ r1.2 + 1 →
      ∃ u ∈ mergeRanges rs, u.1 ≤ r1.1 ∧ r1.2 ≤ u.2 ∧ u.1 ≤ r2.1 ∧ r2.2 ≤ u.2) ∧
    mergeRanges [(10, 20), (21, 30)] = [(10, 30)] ∧
    mergeRanges [(10, 20), (22, 30)] = [(10, 20), (22, 30)] := by
  refine ⟨?_, ?_, by decide, by decide⟩
  · intro rs u v hu hv hne
    have hsym : Symmetric (fun a b : Int × Int => a.2 + 1 < b.1 ∨ b.2 + 1 < a.1) :=
      fun a b h => h.symm
    exact ((mergeRanges_sep rs).imp (fun h => Or.inl h)).forall hsym hu hv hne
  · intro rs r1 r2 h1 h2 hord hadj
    exact mergeRanges_joins h1 h2 hord hadj

/-- C5 witness: a concrete instantiation of the adjacency part of the claim. -/
theorem merge_no_overlap_no_adjacent_witness :
    ∃ u ∈ mergeRanges [((10 : Int), (20 : Int)), (21, 30)],
      u.1 ≤ 10 ∧ 20 ≤ u.2 ∧ u.1 ≤ 21 ∧ 30 ≤ u.2 :=
  merge_no_overlap_no_adjacent.2.1 [((10 : Int), (20 : Int)), (21, 30)]
    (10, 20) (21, 30) (by decide) (by decide) (by decide) (by decide)

/-- C6: `mergeRanges` is idempotent and the merged result is identical for any
permutation of the input range set. -/
theorem merge_idem_and_order_independent :
    (∀ x : List (Int × Int), mergeRanges (mergeRanges x) = mergeRanges x) ∧
    (∀ x y : List (Int × Int), x.Perm y → mergeRanges x = mergeRanges y) :=
  ⟨mergeRanges_idem, fun _ _ h => mergeRanges_perm h⟩

/-- C6 witness: idempotence and order independence at a concrete input. -/
theorem merge_idem_and_order_independent_witness :
    mergeRanges (mergeRanges [((10 : Int), (20 : Int)), (22, 30)]) =
      mergeRanges [((10 : Int), (20 : Int)), (22, 30)] ∧
    mergeRanges [((22 : Int), (30 : Int)), (10, 20)] =
      mergeRanges [((10 : Int), (20 : Int)), (22, 30)] :=
  ⟨merge_idem_and_order_independent.1 _,
    merge_idem_and_order_independent.2 _ _ (List.Perm.swap (10, 20) (22, 30) [])⟩

/-- C7: the fetch retries `RETRY_COUNT` times with a fixed
`RETRY_WAIT_SECONDS` sleep between attempts on any non-2xx-non-404 status or
transport error, exhaustion returning absence; a 404 returns absence
immediately with no retry and no sleep; the attempt count never exceeds
`RETRY_COUNT`. -/
theorem fetch_retry_contract :
    (∀ resp : Nat → Option (Nat × String),
      (∀ i, i < RETRY_COUNT → ∀ code body, resp i = some (code, body) →
        ¬(200 ≤ code ∧ code < 300) ∧ code ≠ 404) →
      fetchWithRetry resp =
        ⟨none, RETRY_COUNT, List.replicate RETRY_COUNT RETRY_WAIT_SECONDS⟩) ∧
    (∀ (resp : Nat → Option (Nat × String)) (body : String),
      resp 0 = some (404, body) → fetchWithRetry resp = ⟨none, 1, []⟩) ∧
    (∀ resp, (fetchWithRetry resp).attempts ≤ RETRY_COUNT) := by
  refine ⟨?_, ?_, ?_⟩
  · intro resp hall
    have h := fetchGo_all_retryable resp RETRY_COUNT 0 []
      (fun j hj1 hj2 => hall j (by omega) )
    rw [fetchWithRetry, h]
    simp
  · intro resp body h
    show fetchGo resp RETRY_COUNT 0 [] = _
    rw [show RETRY_COUNT = 4 + 1 from rfl, fetchGo, h]
    dsimp only
    rw [if_neg (by omega), if_pos rfl]
  · intro resp
    have h := fetchGo_attempts_le resp RETRY_COUNT 0 []
    rw [fetchWithRetry]
    omega

/-- C7 witness: a permanently failing endpoint exhausts the five attempts with
five fixed sleeps and degrades to absence; a 404 answers in one attempt. -/
theorem fetch_retry_contract_witness :
    fetchWithRetry (fun _ => some (500, "err")) =
      ⟨none, RETRY_COUNT, List.replicate RETRY_COUNT RETRY_WAIT_SECONDS⟩ ∧
    fetchWithRetry (fun _ => some (404, "absent")) = ⟨none, 1, []⟩ :=
  ⟨fetch_retry_contract.1 _ (by
      intro i hi code body h
      simp only [Option.some.injEq, Prod.mk.injEq] at h
      omega),
    fetch_retry_contract.2.1 _ "absent" rfl⟩

/-- C9: `shardPath` agrees with the three-nested-bucket formula of the
specification for every `id ≥ 1`, and matches the two concrete boundary
examples. -/
theorem shardPath_contract :
    (∀ (ns : String) (id : Int) (extension : String), 1 ≤ id →
      shardPath ns id extension = shardPathSpec ns id extension) ∧
    shardPath "sm" 50567 "xml" =
      ["sm", "1-1000000", "50001-60000", "50501-50600", "50567.xml"] ∧
    (shardPath "sm" 100 "xml").get? 3 = some "1-100" := by
  refine ⟨fun ns id extension _ => ?_, by decide, by decide⟩
  simp only [shardPath, shardPathSpec, bucketName]
  ring_nf

/-- C9 witness: the specification formula instantiated at the example ID. -/
theorem shardPath_contract_witness :
    shardPath "sm" 50567 "xml" = shardPathSpec "sm" 50567 "xml" :=
  shardPath_contract.1 "sm" 50567 "xml" (by decide)

/-- C8: if frontier resolution returns absence, the run ends with no walking
loop executed, no range committed, no record mutation and no save of the
progress file. -/
theorem frontier_failure_aborts (budget : Nat → Bool) (fetchOk : Int → Bool)
    (rec : PrefixRecord) :
    run none budget fetchOk rec = ⟨none, none, none⟩ := rfl

/-- C4: if the stored ranges merge to the single range that exactly spans
`[OLDEST_VIDEO_ID, adjusted frontier]`, the controller clears all ranges
before walking. -/
theorem reset_on_full_coverage (f : Int) (budget : Nat → Bool)
    (fetchOk : Int → Bool) (rec : PrefixRecord)
    (hfull : mergeRanges rec.processed_ranges =
      [(OLDEST_VIDEO_ID, f - FRONTIER_OFFSET)]) :
    (run (some f) budget fetchOk rec).walkedRanges = some [] := by
  have h : resetIfComplete (f - FRONTIER_OFFSET) (mergeRanges rec.processed_ranges)
      = [] := by
    rw [hfull, resetIfComplete]
    exact if_pos ⟨le_refl _, le_refl _⟩
  simp only [run, h]

/-- C4 witness: the claim's concrete instance, `floor_id = 9`,
`processed_ranges = [[9, 100000]]`, adjusted frontier `100000`. -/
theorem reset_on_full_coverage_witness :
    mergeRanges [((9 : Int), (100000 : Int))] =
      [(OLDEST_VIDEO_ID, (110000 : Int) - FRONTIER_OFFSET)] ∧
    (run (some 110000) (fun _ => false) (fun _ => true)
      ⟨[(9, 100000)], none⟩).walkedRanges = some [] :=
  ⟨by decide,
    reset_on_full_coverage 110000 (fun _ => false) (fun _ => true)
      ⟨[(9, 100000)], none⟩ (by decide)⟩

/-- C1 counterexample: cursor 600 sits inside the processed range `[500, 600]`
and the wall-clock budget reports exceeded from the second check on (check 0
is within budget, check 1 is not).  The walker jumps to 499 and then stops at
the budget test performed by the skip re-evaluation: two budget checks are
consumed and no ID at all is processed, refuting the claim that a skip
consumes no budget check and that the re-evaluation does not pass through the
wall-clock budget test (under that claim ID 499 would have been processed
before the next budget test). -/
theorem skip_budget_check_counterexample :
    walk (fun n => decide (1 ≤ n)) (fun _ => true) [(500, 600)] 600 0 (-1) [] =
      ⟨-1, [], 2, true, 499⟩ := by decide

/-- C1 (amended): when the cursor `c` sits inside an already-processed range
`[lo, hi]` and the budget check at the loop head passes, the controller jumps
the cursor directly to `lo - 1`, processing no ID and leaving
`end_id_this_run` and the attempted list untouched, and never processes any ID
at or above `lo` for the rest of the walk; however the jump consumes the
current budget check and the re-evaluation passes through the budget test
again (the continuation starts at check index `checks + 1`). -/
theorem skip_jump_amended (budget : Nat → Bool) (fetchOk : Int → Bool)
    (ranges : List (Int × Int)) (c : Int) (checks : Nat) (endId : Int)
    (att : List (Int × Bool)) (r : Int × Int)
    (h9 : OLDEST_VIDEO_ID ≤ c) (hb : budget checks = false)
    (hskip : findSkip ranges c = some r) :
    walk budget fetchOk ranges c checks endId att =
      walk budget fetchOk ranges (r.1 - 1) (checks + 1) endId att ∧
    r.1 ≤ c ∧ c ≤ r.2 ∧ r ∈ ranges ∧
    ∀ p ∈ (walk budget fetchOk ranges c checks endId att).attempted,
      p ∈ att ∨ p.1 < r.1 := by
  obtain ⟨hr1, hr2, hr3⟩ := findSkip_some hskip
  have hc9 : ¬c < OLDEST_VIDEO_ID := not_lt.2 h9
  obtain ⟨k, hk⟩ : ∃ k, (c - OLDEST_VIDEO_ID + 1).toNat = k + 1 := by
    refine ⟨(c - OLDEST_VIDEO_ID).toNat, ?_⟩
    simp only [OLDEST_VIDEO_ID] at h9 ⊢
    omega
  have hstep : walk budget fetchOk ranges c checks endId att =
      walkGo budget fetchOk ranges k (r.1 - 1) (checks + 1) endId att := by
    unfold walk
    rw [hk]
    exact walkGo_step_skip budget fetchOk ranges k endId att hc9 hb hskip
  have heq : walk budget fetchOk ranges c checks endId att =
      walk budget fetchOk ranges (r.1 - 1) (checks + 1) endId att := by
    rw [hstep]
    unfold walk
    apply walkGo_congr
    · simp only [OLDEST_VIDEO_ID] at hk hr1 h9 ⊢
      omega
    · exact le_refl _
  refine ⟨heq, hr1, hr2, hr3, ?_⟩
  intro p hp
  rw [heq] at hp
  unfold walk at hp
  obtain ⟨ext, hatt, hprops, -⟩ :=
    walkGo_ext budget fetchOk ranges ((r.1 - 1 - OLDEST_VIDEO_ID + 1).toNat)
      (r.1 - 1) (checks + 1) endId att
  rw [hatt] at hp
  rcases List.mem_append.1 hp with h | h
  · exact Or.inl h
  · right
    have := (hprops p h).2.1
    omega

/-- C1 witness: the jump at cursor 600 inside `[500, 600]` with a budget that
never expires. -/
theorem skip_jump_amended_witness :
    walk (fun _ => false) (fun _ => true) [((500 : Int), (600 : Int))] 600 0 (-1) [] =
      walk (fun _ => false) (fun _ => true) [((500 : Int), (600 : Int))] 499 1 (-1) [] ∧
    (500 : Int) ≤ 600 ∧ (600 : Int) ≤ 600 ∧
    ((500 : Int), (600 : Int)) ∈ [((500 : Int), (600 : Int))] ∧
    ∀ p ∈ (walk (fun _ => false) (fun _ => true)
        [((500 : Int), (600 : Int))] 600 0 (-1) []).attempted,
      p ∈ ([] : List (Int × Bool)) ∨ p.1 < 500 :=
  skip_jump_amended (fun _ => false) (fun _ => true) [((500 : Int), (600 : Int))]
    600 0 (-1) [] ((500 : Int), (600 : Int)) (by decide) rfl (by decide)

/-- C2: when at least one ID was processed, the committed range appended to the
persisted list is exactly `(end_id_this_run, start_id_this_run)` with the high
bound the adjusted frontier the run started at and the low bound the lowest ID
actually attempted (an attempted ID enters the list whatever its fetch
outcome, and the committed progress is independent of the fetch oracle). -/
theorem commit_range_exact (f : Int) (budget : Nat → Bool) (fetchOk : Int → Bool)
    (rec : PrefixRecord) (w : WalkResult)
    (hw : (run (some f) budget fetchOk rec).walkResult = some w)
    (hne : w.endId ≠ -1) :
    (run (some f) budget fetchOk rec).saved =
      some ⟨mergeRanges
          (resetIfComplete (f - FRONTIER_OFFSET) (mergeRanges rec.processed_ranges) ++
            [(w.endId, f - FRONTIER_OFFSET)]),
        some (f - FRONTIER_OFFSET)⟩ ∧
    w.attempted ≠ [] ∧
    (∀ p ∈ w.attempted, OLDEST_VIDEO_ID ≤ p.1 ∧ p.1 ≤ f - FRONTIER_OFFSET ∧
      p.2 = fetchOk p.1 ∧ w.endId ≤ p.1) ∧
    (∃ p ∈ w.attempted, p.1 = w.endId) ∧
    ∀ fetchOk' : Int → Bool,
      (run (some f) budget fetchOk' rec).saved =
        (run (some f) budget fetchOk rec).saved := by
  have hw0 : w = walk budget fetchOk
      (resetIfComplete (f - FRONTIER_OFFSET) (mergeRanges rec.processed_ranges))
      (f - FRONTIER_OFFSET) 0 (-1) [] :=
    Option.some_injective _ hw.symm
  subst hw0
  have hwg : walk budget fetchOk
      (resetIfComplete (f - FRONTIER_OFFSET) (mergeRanges rec.processed_ranges))
      (f - FRONTIER_OFFSET) 0 (-1) [] =
      walkGo budget fetchOk
        (resetIfComplete (f - FRONTIER_OFFSET) (mergeRanges rec.processed_ranges))
        ((f - FRONTIER_OFFSET - OLDEST_VIDEO_ID + 1).toNat)
        (f - FRONTIER_OFFSET) 0 (-1) [] := rfl
  rw [hwg] at hne ⊢
  obtain ⟨ext, hatt, hprops, hcases⟩ :=
    walkGo_ext budget fetchOk
      (resetIfComplete (f - FRONTIER_OFFSET) (mergeRanges rec.processed_ranges))
      ((f - FRONTIER_OFFSET - OLDEST_VIDEO_ID + 1).toNat)
      (f - FRONTIER_OFFSET) 0 (-1) []
  rw [List.nil_append] at hatt
  obtain ⟨q, hq, hqe⟩ : ∃ p ∈ ext, p.1 =
      (walkGo budget fetchOk
        (resetIfComplete (f - FRONTIER_OFFSET) (mergeRanges rec.processed_ranges))
        ((f - FRONTIER_OFFSET - OLDEST_VIDEO_ID + 1).toNat)
        (f - FRONTIER_OFFSET) 0 (-1) []).endId := by
    rcases hcases with ⟨-, he⟩ | h
    · exact absurd he hne
    · exact h
  refine ⟨?_, ?_, ?_, ?_, ?_⟩
  · have hsv : (run (some f) budget fetchOk rec).saved =
        some ⟨if (walkGo budget fetchOk
              (resetIfComplete (f - FRONTIER_OFFSET) (mergeRanges rec.processed_ranges))
              ((f - FRONTIER_OFFSET - OLDEST_VIDEO_ID + 1).toNat)
              (f - FRONTIER_OFFSET) 0 (-1) []).endId ≠ -1
            then mergeRanges
              (resetIfComplete (f - FRONTIER_OFFSET) (mergeRanges rec.processed_ranges) ++
                [((walkGo budget fetchOk
                    (resetIfComplete (f - FRONTIER_OFFSET) (mergeRanges rec.processed_ranges))
                    ((f - FRONTIER_OFFSET - OLDEST_VIDEO_ID + 1).toNat)
                    (f - FRONTIER_OFFSET) 0 (-1) []).endId, f - FRONTIER_OFFSET)])
            else resetIfComplete (f - FRONTIER_OFFSET) (mergeRanges rec.processed_ranges),
          some (f - FRONTIER_OFFSET)⟩ := rfl
    rw [hsv, if_pos hne]
  · rw [hatt]
    exact List.ne_nil_of_mem hq
  · intro p hp
    rw [hatt] at hp
    obtain ⟨h1, h2, h3, h4⟩ := hprops p hp
    exact ⟨h1, h2, h3, h4⟩
  · rw [hatt]
    exact ⟨q, hq, hqe⟩
  · intro fo'
    have hE := (walkGo_fetch_irrel budget fo' fetchOk
      (resetIfComplete (f - FRONTIER_OFFSET) (mergeRanges rec.processed_ranges))
      ((f - FRONTIER_OFFSET - OLDEST_VIDEO_ID + 1).toNat)
      (f - FRONTIER_OFFSET) 0 (-1) [] [] rfl).1
    have hsv' : (run (some f) budget fo' rec).saved =
        some ⟨if (walkGo budget fo'
              (resetIfComplete (f - FRONTIER_OFFSET) (mergeRanges rec.processed_ranges))
              ((f - FRONTIER_OFFSET - OLDEST_VIDEO_ID + 1).toNat)
              (f - FRONTIER_OFFSET) 0 (-1) []).endId ≠ -1
            then mergeRanges
              (resetIfComplete (f - FRONTIER_OFFSET) (mergeRanges rec.processed_ranges) ++
                [((walkGo budget fo'
                    (resetIfComplete (f - FRONTIER_OFFSET) (mergeRanges rec.processed_ranges))
                    ((f - FRONTIER_OFFSET - OLDEST_VIDEO_ID + 1).toNat)
                    (f - FRONTIER_OFFSET) 0 (-1) []).endId, f - FRONTIER_OFFSET)])
            else resetIfComplete (f - FRONTIER_OFFSET) (mergeRanges rec.processed_ranges),
          some (f - FRONTIER_OFFSET)⟩ := rfl
    have hsv : (run (some f) budget fetchOk rec).saved =
        some ⟨if (walkGo budget fetchOk
              (resetIfComplete (f - FRONTIER_OFFSET) (mergeRanges rec.processed_ranges))
              ((f - FRONTIER_OFFSET - OLDEST_VIDEO_ID + 1).toNat)
              (f - FRONTIER_OFFSET) 0 (-1) []).endId ≠ -1
            then mergeRanges
              (resetIfComplete (f - FRONTIER_OFFSET) (mergeRanges rec.processed_ranges) ++
                [((walkGo budget fetchOk
                    (resetIfComplete (f - FRONTIER_OFFSET) (mergeRanges rec.processed_ranges))
                    ((f - FRONTIER_OFFSET - OLDEST_VIDEO_ID + 1).toNat)
                    (f - FRONTIER_OFFSET) 0 (-1) []).endId, f - FRONTIER_OFFSET)])
            else resetIfComplete (f - FRONTIER_OFFSET) (mergeRanges rec.processed_ranges),
          some (f - FRONTIER_OFFSET)⟩ := rfl
    rw [hsv', hsv, hE]

/-- C2 witness: a short run from adjusted frontier 12 down to the floor commits
exactly the range `(9, 12)`. -/
theorem commit_range_exact_witness :
    (run (some 10012) (fun _ => false) (fun _ => true) ⟨[], none⟩).saved =
      some ⟨[(9, 12)], some 12⟩ ∧
    (∃ p ∈ (⟨9, [(12, true), (11, true), (10, true), (9, true)], 4, false, 8⟩ :
        WalkResult).attempted, p.1 = 9) :=
  ⟨(commit_range_exact 10012 (fun _ => false) (fun _ => true) ⟨[], none⟩
      ⟨9, [(12, true), (11, true), (10, true), (9, true)], 4, false, 8⟩
      (by decide) (by decide)).1,
    (commit_range_exact 10012 (fun _ => false) (fun _ => true) ⟨[], none⟩
      ⟨9, [(12, true), (11, true), (10, true), (9, true)], 4, false, 8⟩
      (by decide) (by decide)).2.2.2.1⟩

/-- C3 counterexample: the budget is already exhausted at the first check, so
zero IDs are processed, and the stored frontier already equals the adjusted
frontier (`20000 - 10000 = 10000`), so the frontier value does not change —
yet the progress record is still written (`saved ≠ none`), refuting "no save
of the ranges occurs; the record is written only if the frontier value itself
changed". -/
theorem save_unconditional_counterexample :
    (run (some 20000) (fun _ => true) (fun _ => true) ⟨[], some 10000⟩).walkResult =
      some ⟨-1, [], 1, true, 10000⟩ ∧
    (20000 : Int) - FRONTIER_OFFSET = 10000 ∧
    (run (some 20000) (fun _ => true) (fun _ => true) ⟨[], some 10000⟩).saved =
      some ⟨[], some 10000⟩ ∧
    (run (some 20000) (fun _ => true) (fun _ => true) ⟨[], some 10000⟩).saved ≠
      none := by decide

/-- C3 (amended): if zero IDs were processed after a successful frontier
resolution, no new range is appended — the saved range list is exactly the
merged (and possibly reset) pre-existing list — but the progress record is
saved unconditionally at the end of the run, with the updated frontier,
whether or not the frontier value changed. -/
theorem zero_processed_saves_unconditionally (f : Int) (budget : Nat → Bool)
    (fetchOk : Int → Bool) (rec : PrefixRecord) (w : WalkResult)
    (hw : (run (some f) budget fetchOk rec).walkResult = some w)
    (he : w.endId = -1) :
    (run (some f) budget fetchOk rec).saved =
      some ⟨resetIfComplete (f - FRONTIER_OFFSET) (mergeRanges rec.processed_ranges),
        some (f - FRONTIER_OFFSET)⟩ ∧
    w.attempted = [] := by
  have hw0 : w = walk budget fetchOk
      (resetIfComplete (f - FRONTIER_OFFSET) (mergeRanges rec.processed_ranges))
      (f - FRONTIER_OFFSET) 0 (-1) [] :=
    Option.some_injective _ hw.symm
  subst hw0
  have hwg : walk budget fetchOk
      (resetIfComplete (f - FRONTIER_OFFSET) (mergeRanges rec.processed_ranges))
      (f - FRONTIER_OFFSET) 0 (-1) [] =
      walkGo budget fetchOk
        (resetIfComplete (f - FRONTIER_OFFSET) (mergeRanges rec.processed_ranges))
        ((f - FRONTIER_OFFSET - OLDEST_VIDEO_ID + 1).toNat)
        (f - FRONTIER_OFFSET) 0 (-1) [] := rfl
  rw [hwg] at he ⊢
  obtain ⟨ext, hatt, hprops, hcases⟩ :=
    walkGo_ext budget fetchOk
      (resetIfComplete (f - FRONTIER_OFFSET) (mergeRanges rec.processed_ranges))
      ((f - FRONTIER_OFFSET - OLDEST_VIDEO_ID + 1).toNat)
      (f - FRONTIER_OFFSET) 0 (-1) []
  rw [List.nil_append] at hatt
  have hext : ext = [] := by
    rcases hcases with ⟨hnil, -⟩ | ⟨q, hq, hqe⟩
    · exact hnil
    · exfalso
      have h9 := (hprops q hq).1
      rw [hqe, he] at h9
      simp only [OLDEST_VIDEO_ID] at h9
      omega
  constructor
  · have hsv : (run (some f) budget fetchOk rec).saved =
        some ⟨if (walkGo budget fetchOk
              (resetIfComplete (f - FRONTIER_OFFSET) (mergeRanges rec.processed_ranges))
              ((f - FRONTIER_OFFSET - OLDEST_VIDEO_ID + 1).toNat)
              (f - FRONTIER_OFFSET) 0 (-1) []).endId ≠ -1
            then mergeRanges
              (resetIfComplete (f - FRONTIER_OFFSET) (mergeRanges rec.processed_ranges) ++
                [((walkGo budget fetchOk
                    (resetIfComplete (f - FRONTIER_OFFSET) (mergeRanges rec.processed_ranges))
                    ((f - FRONTIER_OFFSET - OLDEST_VIDEO_ID + 1).toNat)
                    (f - FRONTIER_OFFSET) 0 (-1) []).endId, f - FRONTIER_OFFSET)])
            else resetIfComplete (f - FRONTIER_OFFSET) (mergeRanges rec.processed_ranges),
          some (f - FRONTIER_OFFSET)⟩ := rfl
    rw [hsv, if_neg (by simp [he])]
  · rw [hatt, hext]

/-- C3 witness: the amended statement at the counterexample's input. -/
theorem zero_processed_saves_unconditionally_witness :
    (run (some 20000) (fun _ => true) (fun _ => true) ⟨[], some 10000⟩).saved =
      some ⟨[], some 10000⟩ ∧
    (⟨-1, [], 1, true, 10000⟩ : WalkResult).attempted = [] :=
  zero_processed_saves_unconditionally 20000 (fun _ => true) (fun _ => true)
    ⟨[], some 10000⟩ ⟨-1, [], 1, true, 10000⟩ (by decide) (by decide)

/-- C10: when the reset rule fires (the stored ranges merge to the single
range exactly spanning floor to adjusted frontier) and the run then processes
zero IDs, the cleared empty range list is still written into the persisted
record, discarding the previously stored (non-empty) progress with no new
range committed. -/
theorem reset_then_zero_processed_discards (f : Int) (budget : Nat → Bool)
    (fetchOk : Int → Bool) (rec : PrefixRecord) (w : WalkResult)
    (hfull : mergeRanges rec.processed_ranges =
      [(OLDEST_VIDEO_ID, f - FRONTIER_OFFSET)])
    (hw : (run (some f) budget fetchOk rec).walkResult = some w)
    (hzero : w.attempted = []) :
    (run (some f) budget fetchOk rec).saved =
      some ⟨[], some (f - FRONTIER_OFFSET)⟩ ∧
    rec.processed_ranges ≠ [] := by
  have hpre : resetIfComplete (f - FRONTIER_OFFSET)
      (mergeRanges rec.processed_ranges) = [] := by
    rw [hfull, resetIfComplete]
    exact if_pos ⟨le_refl _, le_refl _⟩
  have hw0 : w = walk budget fetchOk
      (resetIfComplete (f - FRONTIER_OFFSET) (mergeRanges rec.processed_ranges))
      (f - FRONTIER_OFFSET) 0 (-1) [] :=
    Option.some_injective _ hw.symm
  have hwg : walk budget fetchOk
      (resetIfComplete (f - FRONTIER_OFFSET) (mergeRanges rec.processed_ranges))
      (f - FRONTIER_OFFSET) 0 (-1) [] =
      walkGo budget fetchOk
        (resetIfComplete (f - FRONTIER_OFFSET) (mergeRanges rec.processed_ranges))
        ((f - FRONTIER_OFFSET - OLDEST_VIDEO_ID + 1).toNat)
        (f - FRONTIER_OFFSET) 0 (-1) [] := rfl
  obtain ⟨ext, hatt, hprops, hcases⟩ :=
    walkGo_ext budget fetchOk
      (resetIfComplete (f - FRONTIER_OFFSET) (mergeRanges rec.processed_ranges))
      ((f - FRONTIER_OFFSET - OLDEST_VIDEO_ID + 1).toNat)
      (f - FRONTIER_OFFSET) 0 (-1) []
  rw [List.nil_append] at hatt
  have hext : ext = [] := by
    rw [hw0, hwg, hatt] at hzero
    exact hzero
  have hend : (walkGo budget fetchOk
      (resetIfComplete (f - FRONTIER_OFFSET) (mergeRanges rec.processed_ranges))
      ((f - FRONTIER_OFFSET - OLDEST_VIDEO_ID + 1).toNat)
      (f - FRONTIER_OFFSET) 0 (-1) []).endId = -1 := by
    rcases hcases with ⟨-, he⟩ | ⟨q, hq, -⟩
    · exact he
    · rw [hext] at hq
      cases hq
  constructor
  · have hsv : (run (some f) budget fetchOk rec).saved =
        some ⟨if (walkGo budget fetchOk
              (resetIfComplete (f - FRONTIER_OFFSET) (mergeRanges rec.processed_ranges))
              ((f - FRONTIER_OFFSET - OLDEST_VIDEO_ID + 1).toNat)
              (f - FRONTIER_OFFSET) 0 (-1) []).endId ≠ -1
            then mergeRanges
              (resetIfComplete (f - FRONTIER_OFFSET) (mergeRanges rec.processed_ranges) ++
                [((walkGo budget fetchOk
                    (resetIfComplete (f - FRONTIER_OFFSET) (mergeRanges rec.processed_ranges))
                    ((f - FRONTIER_OFFSET - OLDEST_VIDEO_ID + 1).toNat)
                    (f - FRONTIER_OFFSET) 0 (-1) []).endId, f - FRONTIER_OFFSET)])
            else resetIfComplete (f - FRONTIER_OFFSET) (mergeRanges rec.processed_ranges),
          some (f - FRONTIER_OFFSET)⟩ := rfl
    rw [hsv, if_neg (by simp [hend]), hpre]
  · intro hnil
    rw [hnil] at hfull
    exact List.noConfusion hfull

/-- C10 witness: floor 9, stored progress `[[9, 100000]]`, adjusted frontier
100000, budget exhausted at the very first check: the previously stored range
is discarded and an empty range list is saved. -/
theorem reset_then_zero_processed_discards_witness :
    (run (some 110000) (fun _ => true) (fun _ => true)
      ⟨[(9, 100000)], some 42⟩).saved = some ⟨[], some 100000⟩ ∧
    ([((9 : Int), (100000 : Int))] : List (Int × Int)) ≠ [] :=
  reset_then_zero_processed_discards 110000 (fun _ => true) (fun _ => true)
    ⟨[(9, 100000)], some 42⟩ ⟨-1, [], 1, true, 100000⟩
    (by decide) (by decide) (by decide)
